import Mathlib

/-!
Shallow embedding of the gogitlocalstats commit-activity aggregation and
calendar-rendering engine (stats part of main.go), together with proofs about
its specified properties.

Conventions of the embedding:
* Instants (`time.Time`) are modelled as `Int` seconds since the Unix epoch in
  a fixed UTC-like location, so `getBeginningOfDay` floors to a multiple of
  86400 and adding `time.Hour * 24` adds 86400.
* The frozen reference instant returned by every `time.Now()` call during a
  run is passed explicitly as the `now : Int` parameter (the spec's injected
  instant); the current weekday used by `calcOffset` is derived from it.
* Go `map[int]int` values are modelled as association lists `List (Int × Int)`
  (`CommitMap`); a read of a missing key yields the zero value 0, exactly as
  in Go, and `commits[k]++` inserts the key with value 1 when missing.
* Go panics (from `panic(err)` and from out-of-range slice indexing) are
  modelled as `Except.error ()`.
-/

set_option maxHeartbeats 1000000

set_option maxRecDepth 200000

/-- Go constant `daysInLastSixMonths = 183`. -/
def daysInLastSixMonths : Nat := 183

/-- Go constant `outOfRange = 99999`, the sentinel returned by
`countDaysSinceDate` for commits older than six months. -/
def outOfRange : Int := 99999

/-- Modelled from the spec: the constant `weeksInLastSixMonths` is declared in
the repository's full stats source but not shown in `src/main.go`; the spec's
`weeksInWindow = ceil((W + 7) / 7) = 28` printed columns, reached by the
`printCells` loop `i = weeksInLastSixMonths + 1` down to `0`, fixes it at 26. -/
def weeksInLastSixMonths : Nat := 26

/-- Go `time.Weekday` values. -/
inductive Weekday where
  | sunday
  | monday
  | tuesday
  | wednesday
  | thursday
  | friday
  | saturday
  deriving DecidableEq, Repr

/-- Embeds `getBeginningOfDay`: resets an instant to the start (00:00:00) of
its calendar day, i.e. floors to a multiple of 86400 seconds. -/
def getBeginningOfDay (t : Int) : Int :=
  86400 * t.fdiv 86400

/-- Loop of `countDaysSinceDate`: `for date.Before(now) { date = date.Add(24h);
days++; if days > daysInLastSixMonths { return outOfRange } }; return days`.
`now` is already reset to the beginning of the day. -/
def countDaysSinceDateAux (now : Int) (date : Int) (days : Nat) : Int :=
  if date < now then
    if days + 1 > daysInLastSixMonths then outOfRange
    else countDaysSinceDateAux now (date + 86400) (days + 1)
  else (days : Int)
termination_by daysInLastSixMonths + 1 - days
decreasing_by simp only [daysInLastSixMonths] at *; omega

/-- Embeds `countDaysSinceDate`: counts how many days passed since `date`,
where `now` is the frozen instant every `time.Now()` call returns. -/
def countDaysSinceDate (now : Int) (date : Int) : Int :=
  countDaysSinceDateAux (getBeginningOfDay now) date 0

/-- Embeds `calcOffset`: the amount of days missing to fill the last row of
the stats graph, `switch`ing on the current weekday. The Go `var offset int`
starts at zero and every one of the seven cases assigns it. -/
def calcOffset (w : Weekday) : Int :=
  match w with
  | .sunday => 7
  | .monday => 6
  | .tuesday => 5
  | .wednesday => 4
  | .thursday => 3
  | .friday => 2
  | .saturday => 1

/-- Models Go's `time.Now().Weekday()` for the fixed UTC-like location: day 0
of the epoch (1970-01-01) was a Thursday. -/
def weekdayOf (t : Int) : Weekday :=
  match ((t.fdiv 86400 + 4).emod 7).toNat with
  | 0 => .sunday
  | 1 => .monday
  | 2 => .tuesday
  | 3 => .wednesday
  | 4 => .thursday
  | 5 => .friday
  | _ => .saturday

/-- A commit event as consumed by `fillCommits`: `c.Author.When` and
`c.Author.Email`. -/
structure Commit where
  when : Int
  authorEmail : String
  deriving DecidableEq, Repr

/-- The `commits map[int]int` histogram, as an association list preserving
Go map semantics relevant here: reading a missing key yields 0. -/
abbrev CommitMap := List (Int × Int)

/-- Reading `m[k]` from a Go `map[int]int`: the zero value for missing keys. -/
def mapGet (m : CommitMap) (k : Int) : Int :=
  match m with
  | [] => 0
  | (k1, v) :: t => if k1 = k then v else mapGet t k

/-- Writing `m[k]++` to a Go `map[int]int`: bump the entry, inserting the key
with value 1 when it was missing. -/
def mapInc (m : CommitMap) (k : Int) : CommitMap :=
  match m with
  | [] => [(k, 1)]
  | (k1, v) :: t => if k1 = k then (k1, v + 1) :: t else (k1, v) :: mapInc t k

/-- What `git.PlainOpen` + `repo.Head()` + `repo.Log` yield for one stored
repository path: one of the three error sites of `fillCommits`, or the finite
commit sequence the iterator traverses. -/
inductive RepoResult where
  | openErr
  | headErr
  | logErr
  | commits (cs : List Commit)
  deriving DecidableEq, Repr

/-- True when the repository opened, had a HEAD and produced a log. -/
def RepoResult.isGood : RepoResult → Bool
  | .commits _ => true
  | _ => false

/-- Body of the `iterator.ForEach` callback in `fillCommits`: compute
`daysAgo := countDaysSinceDate(c.Author.When) + offset`, skip commits of other
authors, and increment the map when `daysAgo != outOfRange`. -/
def fillCommitStep (email : String) (now : Int) (offset : Int)
    (m : CommitMap) (c : Commit) : CommitMap :=
  let daysAgo := countDaysSinceDate now c.when + offset
  if c.authorEmail ≠ email then m
  else if daysAgo ≠ outOfRange then mapInc m daysAgo
  else m

/-- Embeds `fillCommits`: opening the repository, getting HEAD and the log
each `panic(err)` on failure (modelled as `Except.error ()`); otherwise the
commits are folded into the map with `fillCommitStep`, using the offset
computed once by `calcOffset()`. -/
def fillCommits (email : String) (now : Int) (wd : Weekday)
    (repo : RepoResult) (m : CommitMap) : Except Unit CommitMap :=
  match repo with
  | .openErr => .error ()
  | .headErr => .error ()
  | .logErr => .error ()
  | .commits cs =>
    let offset := calcOffset wd
    .ok (cs.foldl (fillCommitStep email now offset) m)

/-- The histogram seeding loop of `processRepositories`:
`for i := daysInMap; i > 0; i-- { commits[i] = 0 }`, so the map holds keys
183 down to 1, each 0, in that insertion order. -/
def seedMap : CommitMap :=
  (List.range' 1 daysInLastSixMonths).reverse.map (fun i : Nat => ((i : Int), 0))

/-- Loop of `processRepositories` over the stored repository paths; a panic
inside `fillCommits` aborts the whole run. -/
def processReposGo (email : String) (now : Int) (wd : Weekday) :
    List RepoResult → CommitMap → Except Unit CommitMap
  | [], m => .ok m
  | r :: rs, m =>
    match fillCommits email now wd r m with
    | .error e => .error e
    | .ok m1 => processReposGo email now wd rs m1

/-- Embeds `processRepositories`: seeds the histogram with zeroes for keys
183..1 and folds every stored repository into it via `fillCommits`. -/
def processRepositories (email : String) (now : Int) (wd : Weekday)
    (repos : List RepoResult) : Except Unit CommitMap :=
  processReposGo email now wd repos seedMap

/-- One step of the insertion in `sort.Ints`: place `x` into an already
sorted list. -/
def insertSorted (x : Int) : List Int → List Int
  | [] => [x]
  | y :: ys => if x ≤ y then x :: y :: ys else y :: insertSorted x ys

/-- Embeds `sortMapIntoSlice`: collect the map's keys and sort them
ascending (`sort.Ints`). -/
def sortMapIntoSlice (m : CommitMap) : List Int :=
  (m.map Prod.fst).foldr insertSorted []

/-- The `column` type of the stats code: `type column []int`. -/
abbrev Column := List Int

/-- Reading `cols[i]` with its `ok` flag from the Go `map[int]column`. -/
def assocLookup (cols : List (Int × Column)) (k : Int) : Option Column :=
  match cols with
  | [] => none
  | (k1, v) :: t => if k1 = k then some v else assocLookup t k

/-- Writing `cols[week] = col` to the Go `map[int]column`. -/
def assocSet (cols : List (Int × Column)) (k : Int) (v : Column) :
    List (Int × Column) :=
  match cols with
  | [] => [(k, v)]
  | (k1, v1) :: t => if k1 = k then (k1, v) :: t else (k1, v1) :: assocSet t k v

/-- Body of the `buildCols` loop for one key `k`: reset the column at weekday
position 0, append the commit count, and commit the column to the map at
weekday position 6. Go `/` and `%` on `int` truncate toward zero. -/
def buildColsStep (m : CommitMap) (st : List (Int × Column) × Column)
    (k : Int) : List (Int × Column) × Column :=
  let col1 := if k.tmod 7 = 0 then ([] : Column) else st.2
  let col2 := col1 ++ [mapGet m k]
  (if k.tmod 7 = 6 then assocSet st.1 (k.tdiv 7) col2 else st.1, col2)

/-- Embeds `buildCols`: fold the sorted keys into the week-indexed column
map, starting from an empty map and an empty current column. -/
def buildCols (keys : List Int) (m : CommitMap) : List (Int × Column) :=
  (keys.foldl (buildColsStep m) ([], [])).1

/-- Escape-sequence selection of `printCell`: the neutral default, the Go
`switch` whose first true case wins, and the `today` override. -/
def cellEscape (val : Int) (today : Bool) : String :=
  let escape :=
    if 0 < val ∧ val < 5 then "\x1b[1;30;47m"
    else if 5 ≤ val ∧ val < 10 then "\x1b[1;30;43m"
    else if 10 ≤ val then "\x1b[1;30;42m"
    else "\x1b[0;37;30m"
  if today then "\x1b[1;37;45m" else escape

/-- Format-string selection of `printCell` applied to `val`: the empty marker
for 0, otherwise the Go `switch { case val >= 10: " %d "; case val >= 100:
"%d " }` with default `"  %d "`, whose first true case wins. -/
def cellPayload (val : Int) : String :=
  if val = 0 then "  - "
  else if val ≥ 10 then " " ++ toString val ++ " "
  else if val ≥ 100 then toString val ++ " "
  else "  " ++ toString val ++ " "

/-- Embeds `printCell`: the chosen escape, the formatted value, and the reset
sequence. -/
def printCell (val : Int) (today : Bool) : String :=
  cellEscape val today ++ cellPayload val ++ "\x1b[0m"

/-- Embeds `printDayCol`: the day-name label for rows 1, 3 and 5, blank
otherwise. -/
def printDayCol (day : Nat) : String :=
  match day with
  | 1 => " Mon "
  | 3 => " Wed "
  | 5 => " Fri "
  | _ => "     "

/-- Models Go's `time.Month` for the fixed UTC-like location: civil month
(1..12) of an epoch instant, by the standard civil-from-days calculation. -/
def monthOf (t : Int) : Nat :=
  let z := t.fdiv 86400 + 719468
  let era := z.fdiv 146097
  let doe := (z - era * 146097).toNat
  let yoe := (doe - doe / 1460 + doe / 36524 - doe / 146096) / 365
  let doy := doe - (365 * yoe + yoe / 4 - yoe / 100)
  let mp := (5 * doy + 2) / 153
  if mp < 10 then mp + 3 else mp - 9

/-- Models Go's `Month.String()[:3]`: the short month name. -/
def monthName (m : Nat) : String :=
  match m with
  | 1 => "Jan"
  | 2 => "Feb"
  | 3 => "Mar"
  | 4 => "Apr"
  | 5 => "May"
  | 6 => "Jun"
  | 7 => "Jul"
  | 8 => "Aug"
  | 9 => "Sep"
  | 10 => "Oct"
  | 11 => "Nov"
  | _ => "Dec"

/-- The `printMonths` loop: print the short month name whenever stepping a
week forward changes the month, else blank spacing, breaking once the stepped
date passes `now`. -/
def printMonthsGo (now : Int) (week : Int) (month : Nat) (acc : String) :
    String :=
  let changed := monthOf week ≠ month
  let acc1 := if changed then acc ++ monthName (monthOf week) ++ " "
              else acc ++ "    "
  let month1 := if changed then monthOf week else month
  let week1 := week + 7 * 86400
  if now < week1 then acc1 else printMonthsGo now week1 month1 acc1
termination_by (now - week).toNat
decreasing_by omega

/-- Embeds `printMonths`: start at the beginning of today minus the window,
print the leading spacing, and run the week-stepping loop. -/
def printMonths (now : Int) : String :=
  let week := getBeginningOfDay now - (daysInLastSixMonths : Int) * 86400
  printMonthsGo now week (monthOf week) "         "

/-- The cell-resolution logic of the `printCells` inner loop at week `i`, row
`j`: the unguarded `col[j]` of the today branch is a Go slice access that
panics (modelled `Except.error ()`) when `j` is out of range; the other branch
is guarded by `len(col) > j` and falls back to an empty cell. -/
def renderCell (wd : Weekday) (cols : List (Int × Column)) (i j : Nat) :
    Except Unit String :=
  match assocLookup cols (i : Int) with
  | some col =>
    if i = 0 ∧ (j : Int) = calcOffset wd - 1 then
      match col.get? j with
      | some v => .ok (printCell v true)
      | none => .error ()
    else if h : j < col.length then .ok (printCell (col.get ⟨j, h⟩) false)
    else .ok (printCell 0 false)
  | none => .ok (printCell 0 false)

/-- The `printCells` inner loop over week indices `is` (iterated from
`weeksInLastSixMonths + 1` down to 0) for one row `j`, prefixing the day
label at the first column. -/
def renderRowCells (wd : Weekday) (cols : List (Int × Column)) (j : Nat) :
    List Nat → Except Unit String
  | [] => .ok ""
  | i :: is => do
    let label := if i = weeksInLastSixMonths + 1 then printDayCol j else ""
    let c ← renderCell wd cols i j
    let rest ← renderRowCells wd cols j is
    .ok (label ++ c ++ rest)

/-- The `printCells` outer loop over rows `j = 6` down to `0`. -/
def renderRows (wd : Weekday) (cols : List (Int × Column)) :
    List Nat → Except Unit (List String)
  | [] => .ok []
  | j :: js => do
    let r ← renderRowCells wd cols j
      (List.range (weeksInLastSixMonths + 2)).reverse
    let rs ← renderRows wd cols js
    .ok (r :: rs)

/-- Embeds `printCells`: the month-label header line followed by the seven
weekday rows; a panic anywhere is surfaced as `Except.error ()`. -/
def printCells (now : Int) (wd : Weekday) (cols : List (Int × Column)) :
    Except Unit (List String) := do
  let rows ← renderRows wd cols (List.range 7).reverse
  .ok (printMonths now :: rows)

/-- Embeds `printCommitsStats`: sort the map, build the columns, print the
cells. -/
def printCommitsStats (now : Int) (wd : Weekday) (m : CommitMap) :
    Except Unit (List String) :=
  printCells now wd (buildCols (sortMapIntoSlice m) m)

/-- Embeds `stats`: process the stored repositories, then print the stats,
with every `time.Now()` reading the frozen instant `now`. -/
def stats (email : String) (now : Int) (repos : List RepoResult) :
    Except Unit (List String) := do
  let m ← processRepositories email now (weekdayOf now) repos
  printCommitsStats now (weekdayOf now) m

/-- The ascending key list 1..183 that sorting the seeded map's keys yields. -/
def seedKeysAsc : List Int :=
  (List.range' 1 daysInLastSixMonths).map (fun i : Nat => (i : Int))

/-- Day-index keys of one full week `w`: 7w..7w+6. -/
def weekKeys (w : Int) : List Int :=
  [7 * w, 7 * w + 1, 7 * w + 2, 7 * w + 3, 7 * w + 4, 7 * w + 5, 7 * w + 6]

/-- The seeded day-index keys through week `W`: 1..6, then each full week. -/
def keysThrough : Nat → List Int
  | 0 => [1, 2, 3, 4, 5, 6]
  | w + 1 => keysThrough w ++ weekKeys ((w : Int) + 1)

/-- The week-0 column the fold produces: counts for day indices 1..6 (the
seeded histogram has no key 0), so slice index `i` holds the count of day
index `i + 1`. -/
def col0 (m : CommitMap) : Column :=
  (List.range' 1 6).map (fun i : Nat => mapGet m (i : Int))

/-- The full column of week `w ≥ 1`: counts for day indices 7w..7w+6, slice
index equal to weekday position. -/
def colOf (m : CommitMap) (w : Int) : Column :=
  (List.range 7).map (fun i : Nat => mapGet m (7 * w + (i : Int)))

/-- The grid state after folding day indices 1 through 7W+6: the short week-0
column followed by the full columns of weeks 1..W. -/
def colsUpTo (m : CommitMap) : Nat → List (Int × Column)
  | 0 => [(0, col0 m)]
  | w + 1 => colsUpTo m w ++ [(((w : Int) + 1, colOf m ((w : Int) + 1)))]

/-- Total count held by a grid: the sum over all columns of the cell values. -/
def colsSum (cols : List (Int × Column)) : Int :=
  (cols.map (fun p => p.2.sum)).sum

/-- Total count of a histogram: the sum of all its values. -/
def histTotal (m : CommitMap) : Int :=
  (m.map (fun p => p.2)).sum

/-- Histogram total over day indices 1..n. -/
def histSumTo (m : CommitMap) (n : Nat) : Int :=
  ((List.range' 1 n).map (fun k : Nat => mapGet m (k : Int))).sum

/-- Shape of every histogram the aggregator can produce: the seeded keys
183..1, followed by extra keys each larger than 183 (in-window day indices
above 183 reached via the alignment offset, or the out-of-window sentinel
plus offset). -/
def ShapeOK (m : CommitMap) : Prop :=
  ∃ extras : List Int,
    m.map Prod.fst = seedMap.map Prod.fst ++ extras ∧ ∀ k ∈ extras, 183 < k

/-- The pending column of the fold after the keys through week `W`: the
week-0 column for `W = 0`, else week `W`'s full column. -/
def lastCol (m : CommitMap) : Nat → Column
  | 0 => col0 m
  | w + 1 => colOf m ((w : Int) + 1)

/-! ## Basic facts about the date helpers -/

theorem bod_le (t : Int) : getBeginningOfDay t ≤ t := by
  have h := Int.fdiv_add_fmod t 86400
  have h2 : 0 ≤ t.fmod 86400 := Int.fmod_nonneg' t (by norm_num)
  unfold getBeginningOfDay
  omega

theorem lt_bod_add (t : Int) : t < getBeginningOfDay t + 86400 := by
  have h := Int.fdiv_add_fmod t 86400
  have h2 : t.fmod 86400 < 86400 := Int.fmod_lt_of_pos t (by norm_num)
  unfold getBeginningOfDay
  omega

theorem countDaysSinceDateAux_exact (N : Int) :
    ∀ (k : Nat) (date : Int) (days : Nat),
      N ≤ date + 86400 * k → date + 86400 * k < N + 86400 →
      days + k ≤ daysInLastSixMonths →
      countDaysSinceDateAux N date days = (days : Int) + k := by
  intro k
  have hd : daysInLastSixMonths = 183 := rfl
  induction k with
  | zero =>
    intro date days h1 h2 h3
    rw [countDaysSinceDateAux, if_neg (by omega : ¬date < N)]
    simp
  | succ k ih =>
    intro date days h1 h2 h3
    rw [countDaysSinceDateAux, if_pos (by omega : date < N),
      if_neg (by omega : ¬days + 1 > daysInLastSixMonths)]
    have h4 := ih (date + 86400) (days + 1) (by push_cast at h1 ⊢; omega)
      (by push_cast at h2 ⊢; omega) (by omega)
    rw [h4]
    push_cast
    ring

theorem countDaysSinceDateAux_sentinel (N : Int) :
    ∀ (k : Nat) (date : Int) (days : Nat),
      days + k = daysInLastSixMonths → date + 86400 * k < N →
      countDaysSinceDateAux N date days = outOfRange := by
  intro k
  have hd : daysInLastSixMonths = 183 := rfl
  induction k with
  | zero =>
    intro date days h1 h2
    rw [countDaysSinceDateAux, if_pos (by omega : date < N),
      if_pos (by omega : days + 1 > daysInLastSixMonths)]
  | succ k ih =>
    intro date days h1 h2
    rw [countDaysSinceDateAux, if_pos (by omega : date < N)]
    rw [if_neg (by omega : ¬days + 1 > daysInLastSixMonths)]
    exact ih (date + 86400) (days + 1) (by omega) (by push_cast at h2 ⊢; omega)

theorem countDaysSinceDateAux_nonneg (N : Int) :
    ∀ (n : Nat) (date : Int) (days : Nat),
      daysInLastSixMonths + 1 - days ≤ n →
      0 ≤ countDaysSinceDateAux N date days := by
  intro n
  have hd : daysInLastSixMonths = 183 := rfl
  induction n with
  | zero =>
    intro date days h
    rw [countDaysSinceDateAux]
    split
    · rw [if_pos (by omega : days + 1 > daysInLastSixMonths)]
      norm_num [outOfRange]
    · positivity
  | succ n ih =>
    intro date days h
    rw [countDaysSinceDateAux]
    split
    · split
      · norm_num [outOfRange]
      · exact ih (date + 86400) (days + 1) (by omega)
    · positivity

theorem countDaysSinceDate_nonneg (now date : Int) :
    0 ≤ countDaysSinceDate now date :=
  countDaysSinceDateAux_nonneg (getBeginningOfDay now)
    (daysInLastSixMonths + 1) date 0 (by omega)

/-- C5: for every commit timestamp whose start of day equals the start of the
current day — including clock-skewed future timestamps — `countDaysSinceDate`
returns 0 (the case k = 0); in general it returns the number `k` of whole day
boundaries between the event's start of day and now's start of day whenever
that number is at most the window `daysInLastSixMonths`. -/
theorem countDaysSinceDate_whole_day_boundaries (now date : Int) (k : Nat)
    (hk : getBeginningOfDay now - getBeginningOfDay date = 86400 * k)
    (hW : k ≤ daysInLastSixMonths) :
    countDaysSinceDate now date = k := by
  have h1 := bod_le date
  have h2 := lt_bod_add date
  have h3 := countDaysSinceDateAux_exact (getBeginningOfDay now) k date 0
    (by omega) (by omega) (by omega)
  simpa using h3

/-- Witness for C5: a clock-skewed timestamp 50000 seconds in the future but
on the current day yields 0 days; a timestamp five days back yields 5. -/
theorem countDaysSinceDate_whole_day_boundaries_witness :
    countDaysSinceDate 200000 250000 = 0 ∧ countDaysSinceDate 864000 432500 = 5 := by
  constructor
  · have h := countDaysSinceDate_whole_day_boundaries 200000 250000 0
      (by decide) (by decide)
    simpa using h
  · have h := countDaysSinceDate_whole_day_boundaries 864000 432500 5
      (by decide) (by decide)
    simpa using h

/-! ## C6: the weekday offset -/

/-- C6: `calcOffset` is total on the seven weekday values, with exactly the
mapping Sunday 7, Monday 6, Tuesday 5, Wednesday 4, Thursday 3, Friday 2,
Saturday 1, so its result always lies in [1, 7]. -/
theorem calcOffset_total_weekday_mapping :
    (calcOffset .sunday = 7 ∧ calcOffset .monday = 6 ∧ calcOffset .tuesday = 5 ∧
      calcOffset .wednesday = 4 ∧ calcOffset .thursday = 3 ∧
      calcOffset .friday = 2 ∧ calcOffset .saturday = 1) ∧
    ∀ w : Weekday, 1 ≤ calcOffset w ∧ calcOffset w ≤ 7 :=
  ⟨by decide, fun w => by cases w <;> decide⟩

/-! ## C7 and C8: the cell renderer -/

/-- C7: `printCell` selects the neutral escape for 0 with the empty marker,
the low band for 1..4, the medium band for 5..9, the high band for at least
10; the today flag replaces the band escape by the highlight escape while the
printed payload is the same `cellPayload val` in either case. -/
theorem printCell_intensity_bands (val : Int) (today : Bool) :
    (val = 0 → cellEscape val false = "\x1b[0;37;30m" ∧ cellPayload val = "  - ") ∧
    (1 ≤ val → val ≤ 4 → cellEscape val false = "\x1b[1;30;47m") ∧
    (5 ≤ val → val ≤ 9 → cellEscape val false = "\x1b[1;30;43m") ∧
    (10 ≤ val → cellEscape val false = "\x1b[1;30;42m") ∧
    cellEscape val true = "\x1b[1;37;45m" ∧
    printCell val today = cellEscape val today ++ cellPayload val ++ "\x1b[0m" := by
  refine ⟨?_, ?_, ?_, ?_, rfl, rfl⟩
  · rintro rfl
    exact ⟨rfl, rfl⟩
  · intro h1 h2
    have hA : 0 < val ∧ val < 5 := by omega
    simp [cellEscape, hA]
  · intro h1 h2
    have hA : ¬(0 < val ∧ val < 5) := by omega
    have hB : 5 ≤ val ∧ val < 10 := by omega
    simp [cellEscape, hA, hB]
  · intro h1
    have hA : ¬(0 < val ∧ val < 5) := by omega
    have hB : ¬(5 ≤ val ∧ val < 10) := by omega
    simp [cellEscape, hA, hB, h1]

/-- Witness for C7 at concrete cell values of every band. -/
theorem printCell_intensity_bands_witness :
    cellEscape 3 false = "\x1b[1;30;47m" ∧ cellEscape 7 false = "\x1b[1;30;43m" ∧
    cellEscape 12 false = "\x1b[1;30;42m" ∧ cellEscape 0 false = "\x1b[0;37;30m" :=
  ⟨(printCell_intensity_bands 3 false).2.1 (by decide) (by decide),
   (printCell_intensity_bands 7 false).2.2.1 (by decide) (by decide),
   (printCell_intensity_bands 12 false).2.2.2.1 (by decide),
   ((printCell_intensity_bands 0 false).1 rfl).1⟩

/-- C8 fails on the code: the `switch` in `printCell` tests `val >= 10`
before `val >= 100`, so a three-digit value is printed with the two-digit
format `" %d "` and occupies 5 characters, while every value below 100 in
the same row occupies 4. -/
theorem printCell_width_unstable_at_hundred :
    (cellPayload 100).length = 5 ∧ (cellPayload 0).length = 4 ∧
    (cellPayload 1).length = 4 ∧ (cellPayload 10).length = 4 ∧
    cellPayload 100 = " 100 " :=
  ⟨rfl, rfl, rfl, rfl, rfl⟩

/-! ## C9: determinism of the pipeline -/

/-- C9: with the repository data, the target email and the frozen instant
`now` fixed as inputs, two runs of the whole pipeline produce identical
output; the embedding passes the one frozen instant every `time.Now()` call
returns explicitly, so `stats` is a pure function of its inputs. -/
theorem stats_deterministic (email1 email2 : String) (now1 now2 : Int)
    (repos1 repos2 : List RepoResult) (he : email1 = email2) (hn : now1 = now2)
    (hr : repos1 = repos2) :
    stats email1 now1 repos1 = stats email2 now2 repos2 := by
  subst he hn hr
  rfl

/-- Witness for C9 at a concrete input. -/
theorem stats_deterministic_witness :
    stats "copesc@gmail.com" 1728000000 [] = stats "copesc@gmail.com" 1728000000 [] :=
  stats_deterministic "copesc@gmail.com" "copesc@gmail.com" 1728000000 1728000000
    [] [] rfl rfl rfl

/-! ## C2: the failure policy of the aggregator -/

/-- C2 fails on the code: a repository that cannot be opened makes
`fillCommits` panic, aborting the whole run; the healthy repository after it
is never processed — the run returns no histogram at all. -/
theorem processRepositories_aborts_on_first_failure :
    processRepositories "user@example.com" 1728000000 .monday
      [.openErr, .commits [⟨1728000000, "user@example.com"⟩]] = .error () ∧
    RepoResult.isGood (.commits [⟨1728000000, "user@example.com"⟩]) = true :=
  ⟨rfl, rfl⟩

theorem processReposGo_isOk (email : String) (now : Int) (wd : Weekday) :
    ∀ (repos : List RepoResult) (m : CommitMap),
      (processReposGo email now wd repos m).isOk = repos.all RepoResult.isGood := by
  intro repos
  induction repos with
  | nil => intro m; rfl
  | cons r rs ih =>
    intro m
    cases r with
    | openErr =>
      simp [processReposGo, fillCommits, RepoResult.isGood, Except.isOk, Except.toBool]
    | headErr =>
      simp [processReposGo, fillCommits, RepoResult.isGood, Except.isOk, Except.toBool]
    | logErr =>
      simp [processReposGo, fillCommits, RepoResult.isGood, Except.isOk, Except.toBool]
    | commits cs =>
      simp only [processReposGo, fillCommits, List.all_cons, RepoResult.isGood,
        Bool.true_and]
      exact ih _

/-- C2 amended: the run succeeds exactly when every stored repository can be
opened, has a HEAD and yields a log; any single failure panics and aborts the
whole run, so no repository after it is processed. -/
theorem processRepositories_ok_iff_all_repos_good (email : String) (now : Int)
    (wd : Weekday) (repos : List RepoResult) :
    (processRepositories email now wd repos).isOk = repos.all RepoResult.isGood :=
  processReposGo_isOk email now wd repos seedMap

/-! ## C1: the out-of-window sentinel comparison -/

/-- C1 fails on the code: `fillCommits` compares
`daysAgo = countDaysSinceDate(...) + offset` against the sentinel, so for a
commit 200 days old (sentinel 99999, offset 4) the comparison
`daysAgo != outOfRange` holds and the commit is counted at histogram key
100003, which exceeds `daysInLastSixMonths + offset`. -/
theorem fillCommits_counts_out_of_window_commit :
    (fillCommits "user@example.com" 1728000000 .wednesday
        (.commits [⟨1728000000 - 200 * 86400, "user@example.com"⟩]) seedMap).map
      (fun m => mapGet m 100003) = .ok 1 ∧
    outOfRange + calcOffset .wednesday = 100003 ∧
    (daysInLastSixMonths : Int) + calcOffset .wednesday < 100003 := by
  refine ⟨?_, rfl, by decide⟩
  have hc : countDaysSinceDate 1728000000 (1728000000 - 200 * 86400) = outOfRange := by
    simp [countDaysSinceDate, countDaysSinceDateAux, getBeginningOfDay,
      daysInLastSixMonths, outOfRange]
  simp only [fillCommits, List.foldl, fillCommitStep, hc, Except.map]
  norm_num [outOfRange, calcOffset]
  rfl

/-! ## C4: the today cell on Sundays -/

/-- C4 fails on the code: when now is a Sunday the offset is 7, the today
branch of `printCells` reads `col[6]` of the week-0 column, which has only 6
elements, and the whole rendering panics — even with no commits at all. -/
theorem stats_panics_on_sunday :
    stats "copesc@gmail.com" 1728172800 [] = .error () ∧
    weekdayOf 1728172800 = .sunday ∧ calcOffset .sunday = 7 :=
  ⟨rfl, rfl, rfl⟩

/-! ## C3: folding the histogram into week columns -/

/-- C3 fails on the code: `buildCols` commits a column only when the weekday
position reaches 6, never at iteration end, so a trailing partial group is
dropped: the histogram with a single key 1 holding 5 commits folds into an
empty grid whose total is 0, not 5. -/
theorem buildCols_drops_trailing_partial_group :
    colsSum (buildCols [1] [(1, 5)]) = 0 ∧ histTotal [(1, 5)] = 5 :=
  ⟨rfl, rfl⟩

theorem tmod_seven_mul_add (w i : Int) (hw : 0 ≤ w) (h0 : 0 ≤ i) (h7 : i < 7) :
    (7 * w + i).tmod 7 = i := by
  have hx : 0 ≤ 7 * w + i := by omega
  rw [Int.tmod_eq_emod hx (by norm_num), add_comm, Int.add_mul_emod_self_left]
  exact Int.emod_eq_of_lt h0 h7

theorem tdiv_seven_mul_add (w i : Int) (hw : 0 ≤ w) (h0 : 0 ≤ i) (h7 : i < 7) :
    (7 * w + i).tdiv 7 = w := by
  have hx : 0 ≤ 7 * w + i := by omega
  rw [Int.tdiv_eq_ediv hx (by norm_num), add_comm,
    Int.add_mul_ediv_left i w (by norm_num : (7 : Int) ≠ 0),
    Int.ediv_eq_zero_of_lt h0 h7]
  simp

theorem tmod_seven_mul (w : Int) (hw : 0 ≤ w) : (7 * w).tmod 7 = 0 := by
  have h := tmod_seven_mul_add w 0 hw (by norm_num) (by norm_num)
  rw [add_zero] at h
  exact h

/-- Folding the seven keys of a full week resets the pending column at
weekday position 0 and commits week `w`'s full column at position 6. -/
theorem foldl_weekKeys (m : CommitMap) (w : Int) (hw : 1 ≤ w)
    (st : List (Int × Column) × Column) :
    List.foldl (buildColsStep m) st (weekKeys w) =
      (assocSet st.1 w (colOf m w), colOf m w) := by
  obtain ⟨cols, col⟩ := st
  have hw0 : (0 : Int) ≤ w := by omega
  have e0 : (7 * w).tmod 7 = 0 := tmod_seven_mul w hw0
  have e1 : (7 * w + 1).tmod 7 = 1 := tmod_seven_mul_add w 1 hw0 (by norm_num) (by norm_num)
  have e2 : (7 * w + 2).tmod 7 = 2 := tmod_seven_mul_add w 2 hw0 (by norm_num) (by norm_num)
  have e3 : (7 * w + 3).tmod 7 = 3 := tmod_seven_mul_add w 3 hw0 (by norm_num) (by norm_num)
  have e4 : (7 * w + 4).tmod 7 = 4 := tmod_seven_mul_add w 4 hw0 (by norm_num) (by norm_num)
  have e5 : (7 * w + 5).tmod 7 = 5 := tmod_seven_mul_add w 5 hw0 (by norm_num) (by norm_num)
  have e6 : (7 * w + 6).tmod 7 = 6 := tmod_seven_mul_add w 6 hw0 (by norm_num) (by norm_num)
  have d6 : (7 * w + 6).tdiv 7 = w := tdiv_seven_mul_add w 6 hw0 (by norm_num) (by norm_num)
  simp only [weekKeys, List.foldl, buildColsStep, e0, e1, e2, e3, e4, e5, e6, d6]
  norm_num [colOf, List.range_succ]

theorem assocSet_not_mem (k : Int) (v : Column) :
    ∀ (l : List (Int × Column)), (∀ p ∈ l, p.1 ≠ k) →
      assocSet l k v = l ++ [(k, v)] := by
  intro l
  induction l with
  | nil => intro _; rfl
  | cons q t ih =>
    intro h
    obtain ⟨k1, v1⟩ := q
    have hk1 : k1 ≠ k := h (k1, v1) (List.mem_cons_self _ _)
    simp only [assocSet, if_neg hk1, List.cons_append, List.cons.injEq, true_and]
    exact ih (fun p hp => h p (List.mem_cons_of_mem _ hp))

theorem colsUpTo_key_le (m : CommitMap) :
    ∀ (W : Nat) (p : Int × Column), p ∈ colsUpTo m W → p.1 ≤ (W : Int) := by
  intro W
  induction W with
  | zero =>
    intro p hp
    simp only [colsUpTo, List.mem_singleton] at hp
    simp [hp]
  | succ W ih =>
    intro p hp
    simp only [colsUpTo, List.mem_append, List.mem_singleton] at hp
    rcases hp with hp | hp
    · have := ih p hp
      push_cast
      omega
    · simp [hp]

/-- Folding the seeded keys through week `W` yields exactly the committed
columns of weeks 0..W, with week `W`'s column still pending. -/
theorem foldl_keysThrough (m : CommitMap) :
    ∀ W : Nat, List.foldl (buildColsStep m) ([], []) (keysThrough W) =
      (colsUpTo m W, lastCol m W) := by
  intro W
  induction W with
  | zero => rfl
  | succ W ih =>
    rw [keysThrough, List.foldl_append, ih,
      foldl_weekKeys m ((W : Int) + 1) (by omega)]
    have hne : ∀ p ∈ colsUpTo m W, p.1 ≠ (W : Int) + 1 := by
      intro p hp
      have := colsUpTo_key_le m W p hp
      omega
    show (assocSet (colsUpTo m W) ((W : Int) + 1) (colOf m ((W : Int) + 1)), _) = _
    rw [assocSet_not_mem _ _ _ hne]
    rfl

/-- Folding the full seeded key range 1..183 commits weeks 0..25 and drops
the trailing keys 182 and 183 (weekday positions 0 and 1 of week 26). -/
theorem buildCols_seedKeys (m : CommitMap) :
    buildCols seedKeysAsc m = colsUpTo m 25 := by
  have hdecomp : seedKeysAsc = keysThrough 25 ++ [(182 : Int), 183] := by decide
  unfold buildCols
  rw [hdecomp, List.foldl_append, foldl_keysThrough m 25]
  rfl

theorem colsSum_append (l1 l2 : List (Int × Column)) :
    colsSum (l1 ++ l2) = colsSum l1 + colsSum l2 := by
  simp [colsSum]

theorem colsSum_colsUpTo (m : CommitMap) :
    ∀ W : Nat, colsSum (colsUpTo m W) = histSumTo m (7 * W + 6) := by
  intro W
  induction W with
  | zero => simp [colsUpTo, colsSum, histSumTo, col0]
  | succ W ih =>
    rw [colsUpTo, colsSum_append, ih]
    have hsplit : 7 * (W + 1) + 6 = 7 + (7 * W + 6) := by omega
    rw [hsplit]
    unfold histSumTo
    rw [show List.range' 1 (7 + (7 * W + 6)) =
      List.range' 1 (7 * W + 6) ++ List.range' (1 + (7 * W + 6)) 7 from
      (List.range'_append_1 1 (7 * W + 6) 7).symm]
    rw [List.map_append, List.sum_append]
    congr 1
    simp only [colsSum, List.map_cons, List.map_nil, List.sum_cons, List.sum_nil,
      add_zero]
    unfold colOf
    rw [List.range'_eq_map_range, List.map_map]
    apply congrArg
    apply List.map_congr_left
    intro i hi
    simp only [Function.comp_apply]
    congr 1
    push_cast
    ring

/-- C3 amended: `buildCols` preserves the total count of the committed weeks
only — over the program's seeded key range 1..183 the grid total equals the
histogram total over day indices 1..181, the counts at indices 182 and 183
(the trailing group whose weekday position never reaches 6) being dropped
because no column is committed when the iteration ends. -/
theorem buildCols_sum_committed_weeks (m : CommitMap) :
    colsSum (buildCols seedKeysAsc m) = histSumTo m 181 := by
  rw [buildCols_seedKeys m, colsSum_colsUpTo m 25]

/-! ## C10: the shape of every aggregated grid -/

theorem insertSorted_front (x : Int) :
    ∀ (tail : List Int), (∀ t ∈ tail, x ≤ t) → insertSorted x tail = x :: tail := by
  intro tail h
  cases tail with
  | nil => rfl
  | cons y ys =>
    have : x ≤ y := h y (List.mem_cons_self _ _)
    simp [insertSorted, this]

theorem insertSorted_append_front (x : Int) :
    ∀ (A T : List Int), (∀ a ∈ A, a < x) → (∀ t ∈ T, x ≤ t) →
      insertSorted x (A ++ T) = A ++ x :: T := by
  intro A
  induction A with
  | nil => intro T _ hT; exact insertSorted_front x T hT
  | cons a A ih =>
    intro T hA hT
    have ha : a < x := hA a (List.mem_cons_self _ _)
    have hax : ¬x ≤ a := by omega
    rw [List.cons_append, insertSorted, if_neg hax]
    rw [ih T (fun b hb => hA b (List.mem_cons_of_mem _ hb)) hT]
    rfl

theorem mem_insertSorted (x : Int) :
    ∀ (T : List Int) (t : Int), t ∈ insertSorted x T → t = x ∨ t ∈ T := by
  intro T
  induction T with
  | nil => intro t ht; simp [insertSorted] at ht; exact Or.inl ht
  | cons y ys ih =>
    intro t ht
    by_cases hxy : x ≤ y
    · simp only [insertSorted, if_pos hxy, List.mem_cons] at ht
      rcases ht with h | h | h
      · exact Or.inl h
      · exact Or.inr (by simp [h])
      · exact Or.inr (List.mem_cons_of_mem _ h)
    · simp only [insertSorted, if_neg hxy, List.mem_cons] at ht
      rcases ht with h | h
      · exact Or.inr (by simp [h])
      · rcases ih t h with h1 | h1
        · exact Or.inl h1
        · exact Or.inr (List.mem_cons_of_mem _ h1)

theorem foldr_insertSorted_gt :
    ∀ (L T : List Int), (∀ k ∈ L, (183 : Int) < k) → (∀ t ∈ T, (183 : Int) < t) →
      ∀ t ∈ List.foldr insertSorted T L, (183 : Int) < t := by
  intro L
  induction L with
  | nil => intro T _ hT t ht; exact hT t ht
  | cons x L ih =>
    intro T hL hT t ht
    simp only [List.foldr_cons] at ht
    rcases mem_insertSorted x _ t ht with h | h
    · rw [h]; exact hL x (List.mem_cons_self _ _)
    · exact ih T (fun k hk => hL k (List.mem_cons_of_mem _ hk)) hT t h

theorem sort_desc_range :
    ∀ (n : Nat) (T : List Int), (∀ t ∈ T, (n : Int) < t) →
      List.foldr insertSorted T
          ((List.range' 1 n).reverse.map (fun i : Nat => (i : Int))) =
        (List.range' 1 n).map (fun i : Nat => (i : Int)) ++ T := by
  intro n
  induction n with
  | zero => intro T _; rfl
  | succ n ih =>
    intro T hT
    have hconcat : List.range' 1 (n + 1) = List.range' 1 n ++ [1 + n] := by
      rw [List.range'_1_concat]
    rw [hconcat]
    rw [List.reverse_append, List.map_append, List.map_append]
    simp only [List.reverse_cons, List.reverse_nil, List.nil_append, List.map_cons,
      List.map_nil, List.cons_append, List.nil_append, List.foldr_cons]
    rw [ih T (fun t ht => by have := hT t ht; push_cast at this ⊢; omega)]
    have hsmall : ∀ a ∈ (List.range' 1 n).map (fun i : Nat => (i : Int)),
        a < ((1 + n : Nat) : Int) := by
      intro a ha
      simp only [List.mem_map] at ha
      obtain ⟨i, hi, rfl⟩ := ha
      rw [List.mem_range'] at hi
      obtain ⟨j, hj, rfl⟩ := hi
      push_cast
      omega
    have hbig : ∀ t ∈ T, ((1 + n : Nat) : Int) ≤ t := by
      intro t ht
      have := hT t ht
      push_cast at this ⊢
      omega
    rw [insertSorted_append_front ((1 + n : Nat) : Int)
      ((List.range' 1 n).map (fun i : Nat => (i : Int))) T hsmall hbig]
    simp

theorem seedMap_keys :
    seedMap.map Prod.fst =
      (List.range' 1 daysInLastSixMonths).reverse.map (fun i : Nat => (i : Int)) := by
  simp [seedMap, List.map_map, Function.comp]

theorem sortMapIntoSlice_shape (m : CommitMap) (h : ShapeOK m) :
    ∃ ex2 : List Int, sortMapIntoSlice m = seedKeysAsc ++ ex2 ∧
      ∀ k ∈ ex2, (183 : Int) < k := by
  obtain ⟨extras, hkeys, hgt⟩ := h
  refine ⟨List.foldr insertSorted [] extras, ?_, ?_⟩
  · unfold sortMapIntoSlice
    rw [hkeys, seedMap_keys, List.foldr_append]
    rw [sort_desc_range daysInLastSixMonths _ ?_]
    · rfl
    · intro t ht
      exact foldr_insertSorted_gt extras [] hgt (by simp) t ht
  · intro k hk
    exact foldr_insertSorted_gt extras [] hgt (by simp) k hk


theorem calcOffset_pos (w : Weekday) : 1 ≤ calcOffset w := by
  cases w <;> decide

theorem mapInc_keys (k : Int) :
    ∀ m : CommitMap, (mapInc m k).map Prod.fst =
      if k ∈ m.map Prod.fst then m.map Prod.fst else m.map Prod.fst ++ [k] := by
  intro m
  induction m with
  | nil => simp [mapInc]
  | cons p t ih =>
    obtain ⟨k1, v⟩ := p
    by_cases hk : k1 = k
    · subst hk
      simp [mapInc]
    · have hk2 : k ≠ k1 := fun h => hk h.symm
      simp only [mapInc, if_neg hk, List.map_cons, List.mem_cons, hk2, false_or]
      rw [ih]
      by_cases hmem : k ∈ t.map Prod.fst
      · simp [hmem]
      · simp [hmem]

theorem mem_seed_keys (k : Int) (h1 : 1 ≤ k) (h2 : k ≤ 183) :
    k ∈ seedMap.map Prod.fst := by
  rw [seedMap_keys]
  simp only [List.mem_map, List.mem_reverse]
  refine ⟨k.toNat, ?_, by omega⟩
  rw [List.mem_range']
  exact ⟨k.toNat - 1, by simp [daysInLastSixMonths]; omega, by omega⟩

theorem shape_mapInc (m : CommitMap) (k : Int) (h : ShapeOK m) (hk : 1 ≤ k) :
    ShapeOK (mapInc m k) := by
  obtain ⟨extras, hkeys, hgt⟩ := h
  by_cases hmem : k ∈ m.map Prod.fst
  · exact ⟨extras, by rw [mapInc_keys, if_pos hmem, hkeys], hgt⟩
  · have hk183 : (183 : Int) < k := by
      by_contra hle
      push_neg at hle
      apply hmem
      rw [hkeys]
      exact List.mem_append_left _ (mem_seed_keys k hk hle)
    refine ⟨extras ++ [k], ?_, ?_⟩
    · rw [mapInc_keys, if_neg hmem, hkeys, List.append_assoc]
    · intro t ht
      rcases List.mem_append.1 ht with h1 | h1
      · exact hgt t h1
      · have ht2 : t = k := by simpa using h1
        rw [ht2]
        exact hk183

theorem shape_fillCommitStep (email : String) (now : Int) (offset : Int)
    (hoff : 1 ≤ offset) (m : CommitMap) (c : Commit) (h : ShapeOK m) :
    ShapeOK (fillCommitStep email now offset m c) := by
  unfold fillCommitStep
  split
  · exact h
  · dsimp only
    split
    · apply shape_mapInc _ _ h
      have := countDaysSinceDate_nonneg now c.when
      omega
    · exact h

theorem shape_foldl (email : String) (now : Int) (offset : Int)
    (hoff : 1 ≤ offset) :
    ∀ (cs : List Commit) (m : CommitMap), ShapeOK m →
      ShapeOK (List.foldl (fillCommitStep email now offset) m cs) := by
  intro cs
  induction cs with
  | nil => intro m h; exact h
  | cons c cs ih =>
    intro m h
    exact ih _ (shape_fillCommitStep email now offset hoff m c h)

theorem shape_seedMap : ShapeOK seedMap := ⟨[], by simp, by simp⟩

theorem processRepositories_shape (email : String) (now : Int) (wd : Weekday)
    (repos : List RepoResult) (m : CommitMap)
    (h : processRepositories email now wd repos = .ok m) : ShapeOK m := by
  unfold processRepositories at h
  have main : ∀ (rs : List RepoResult) (m0 : CommitMap), ShapeOK m0 →
      processReposGo email now wd rs m0 = .ok m → ShapeOK m := by
    intro rs
    induction rs with
    | nil =>
      intro m0 h0 he
      simp only [processReposGo, Except.ok.injEq] at he
      rw [← he]
      exact h0
    | cons r rs ih =>
      intro m0 h0 he
      cases r with
      | openErr => simp [processReposGo, fillCommits] at he
      | headErr => simp [processReposGo, fillCommits] at he
      | logErr => simp [processReposGo, fillCommits] at he
      | commits cs =>
        simp only [processReposGo, fillCommits] at he
        exact ih _ (shape_foldl email now (calcOffset wd) (calcOffset_pos wd) cs m0 h0) he
  exact main repos seedMap shape_seedMap h


theorem assocLookup_append_left (k : Int) (v : Column) :
    ∀ (l1 l2 : List (Int × Column)), assocLookup l1 k = some v →
      assocLookup (l1 ++ l2) k = some v := by
  intro l1
  induction l1 with
  | nil => intro l2 h; simp [assocLookup] at h
  | cons p t ih =>
    intro l2 h
    obtain ⟨k1, v1⟩ := p
    by_cases hk : k1 = k
    · simp only [assocLookup, if_pos hk] at h ⊢
      exact h
    · simp only [assocLookup, if_neg hk] at h ⊢
      exact ih l2 h

theorem assocLookup_append_right (k : Int) :
    ∀ (l1 l2 : List (Int × Column)), (∀ p ∈ l1, p.1 ≠ k) →
      assocLookup (l1 ++ l2) k = assocLookup l2 k := by
  intro l1
  induction l1 with
  | nil => intro l2 _; rfl
  | cons p t ih =>
    intro l2 h
    obtain ⟨k1, v1⟩ := p
    have hk : k1 ≠ k := h (k1, v1) (List.mem_cons_self _ _)
    simp only [List.cons_append, assocLookup, if_neg hk]
    exact ih l2 (fun p hp => h p (List.mem_cons_of_mem _ hp))

theorem assocLookup_assocSet_ne (k1 k : Int) (hne : k1 ≠ k) (v : Column) :
    ∀ l, assocLookup (assocSet l k1 v) k = assocLookup l k := by
  intro l
  induction l with
  | nil => simp [assocSet, assocLookup, if_neg hne]
  | cons p t ih =>
    obtain ⟨k2, v2⟩ := p
    by_cases hk2 : k2 = k1
    · have hk4 : k2 ≠ k := by rw [hk2]; exact hne
      simp only [assocSet, if_pos hk2, assocLookup, if_neg hk4]
    · simp only [assocSet, if_neg hk2, assocLookup]
      by_cases hk3 : k2 = k
      · rw [if_pos hk3, if_pos hk3]
      · rw [if_neg hk3, if_neg hk3]
        exact ih

theorem colsUpTo_lookup_zero (m : CommitMap) :
    ∀ W : Nat, assocLookup (colsUpTo m W) 0 = some (col0 m) := by
  intro W
  induction W with
  | zero => rfl
  | succ W ih =>
    rw [colsUpTo]
    exact assocLookup_append_left 0 (col0 m) _ _ ih

theorem colsUpTo_lookup_week (m : CommitMap) :
    ∀ (W w : Nat), 1 ≤ w → w ≤ W →
      assocLookup (colsUpTo m W) (w : Int) = some (colOf m (w : Int)) := by
  intro W
  induction W with
  | zero => intro w h1 h2; omega
  | succ W ih =>
    intro w h1 h2
    rw [colsUpTo]
    rcases Nat.lt_or_ge w (W + 1) with hlt | hge
    · exact assocLookup_append_left _ _ _ _ (ih w h1 (by omega))
    · have hw : w = W + 1 := by omega
      subst hw
      rw [assocLookup_append_right]
      · have hcast : ((W + 1 : Nat) : Int) = ((W : Int) + 1) := by push_cast; ring
        rw [hcast]
        simp [assocLookup]
      · intro p hp
        have := colsUpTo_key_le m W p hp
        push_cast
        omega

theorem foldl_extras_lookup (m : CommitMap) :
    ∀ (ks : List Int), (∀ k ∈ ks, (183 : Int) < k) →
      ∀ (st : List (Int × Column) × Column) (w : Int), w ≤ 25 →
        assocLookup ((List.foldl (buildColsStep m) st ks).1) w = assocLookup st.1 w := by
  intro ks
  induction ks with
  | nil => intro _ st w _; rfl
  | cons k ks ih =>
    intro hks st w hw
    simp only [List.foldl_cons]
    rw [ih (fun t ht => hks t (List.mem_cons_of_mem _ ht)) _ w hw]
    unfold buildColsStep
    dsimp only
    split
    · apply assocLookup_assocSet_ne
      have hk : (183 : Int) < k := hks k (List.mem_cons_self _ _)
      have h26 : (26 : Int) ≤ k.tdiv 7 := by
        rw [Int.tdiv_eq_ediv (by omega) (by norm_num)]
        rw [Int.le_ediv_iff_mul_le (by norm_num : (0 : Int) < 7)]
        omega
      omega
    · rfl

theorem buildCols_shape_lookup (m : CommitMap) (hs : ShapeOK m) (w : Int)
    (hw : w ≤ 25) :
    assocLookup (buildCols (sortMapIntoSlice m) m) w =
      assocLookup (colsUpTo m 25) w := by
  obtain ⟨ex2, hsort, hgt⟩ := sortMapIntoSlice_shape m hs
  have hseed : List.foldl (buildColsStep m) ([], []) seedKeysAsc =
      (colsUpTo m 25, [mapGet m 182, mapGet m 183]) := by
    rw [show seedKeysAsc = keysThrough 25 ++ [(182 : Int), 183] from by decide,
      List.foldl_append, foldl_keysThrough m 25]
    rfl
  unfold buildCols
  rw [hsort, List.foldl_append, hseed, foldl_extras_lookup m ex2 hgt _ w hw]

/-- C10 fails on the code in its last clause: one commit made exactly 183
days before a Tuesday now (offset 5) lands at day index 188, so week 26 is
committed as a column of only 3 elements (indices 182, 183, 188), not 7. -/
theorem buildCols_week26_short_column :
    ∃ m : CommitMap,
      processRepositories "user@example.com" 1728345600 .tuesday
          [.commits [⟨1728345600 - 183 * 86400, "user@example.com"⟩]] = .ok m ∧
      assocLookup (buildCols (sortMapIntoSlice m) m) 26 = some [0, 0, 1] ∧
      ([0, 0, 1] : Column).length = 3 := by
  refine ⟨seedMap ++ [(188, 1)], ?_, ?_, rfl⟩
  · have hc : countDaysSinceDate 1728345600 (1728345600 - 183 * 86400) = 183 := by
      have h := countDaysSinceDateAux_exact (getBeginningOfDay 1728345600) 183
        (1728345600 - 183 * 86400) 0 (by decide) (by decide) (by decide)
      simpa using h
    simp only [processRepositories, processReposGo, fillCommits, List.foldl,
      fillCommitStep, hc, calcOffset]
    norm_num [outOfRange]
    rfl
  · rfl

/-- C10 amended: in every histogram the aggregator returns, the week-0 column
of the built grid has exactly 6 elements whose slice index `j` holds the
count of day index `j + 1` (key 0 never exists), so the non-today cell that
`printCells` renders at row `j` of week 0 is the count for weekday position
`j + 1`; every committed column of weeks 1 through 25 has exactly 7 elements
with slice index equal to weekday position. (Columns at week 26 or beyond may
be shorter, see the counterexample.) -/
theorem aggregated_grid_week_columns (email : String) (now : Int) (wd : Weekday)
    (repos : List RepoResult) (m : CommitMap)
    (hok : processRepositories email now wd repos = .ok m) :
    assocLookup (buildCols (sortMapIntoSlice m) m) 0 = some (col0 m) ∧
    (col0 m).length = 6 ∧
    (∀ j : Nat, j < 6 → (col0 m)[j]? = some (mapGet m ((j : Int) + 1))) ∧
    (∀ w : Nat, 1 ≤ w → w ≤ 25 →
      assocLookup (buildCols (sortMapIntoSlice m) m) (w : Int) =
        some (colOf m (w : Int)) ∧ (colOf m (w : Int)).length = 7 ∧
      ∀ j : Nat, j < 7 →
        (colOf m (w : Int))[j]? = some (mapGet m (7 * (w : Int) + (j : Int)))) ∧
    (∀ j : Nat, j < 6 → ((j : Int) ≠ calcOffset wd - 1) →
      renderCell wd (buildCols (sortMapIntoSlice m) m) 0 j =
        .ok (printCell (mapGet m ((j : Int) + 1)) false)) := by
  have hs := processRepositories_shape email now wd repos m hok
  have hl0 : assocLookup (buildCols (sortMapIntoSlice m) m) 0 = some (col0 m) := by
    rw [buildCols_shape_lookup m hs 0 (by norm_num), colsUpTo_lookup_zero m 25]
  refine ⟨hl0, by simp [col0], ?_, ?_, ?_⟩
  · intro j hj
    simp only [col0, List.getElem?_map]
    rw [List.getElem?_range' 1 1 (show j < 6 by omega)]
    simp only [Option.map_some']
    congr 1
    push_cast
    ring_nf
  · intro w h1 h2
    have hlw : assocLookup (buildCols (sortMapIntoSlice m) m) (w : Int) =
        some (colOf m (w : Int)) := by
      rw [buildCols_shape_lookup m hs (w : Int) (by exact_mod_cast h2)]
      exact colsUpTo_lookup_week m 25 w h1 h2
    refine ⟨hlw, by simp [colOf], ?_⟩
    intro j hj
    simp only [colOf, List.getElem?_map]
    rw [List.getElem?_range (show j < 7 by omega)]
    simp
  · intro j hj hne
    unfold renderCell
    rw [Nat.cast_zero, hl0]
    dsimp only
    have hcond : ¬((0 : Nat) = 0 ∧ (j : Int) = calcOffset wd - 1) := by
      intro hc
      exact hne hc.2
    rw [if_neg hcond]
    have hlen : j < (col0 m).length := by
      simp only [col0, List.length_map, List.length_range']
      omega
    rw [dif_pos hlen]
    congr 2
    rw [List.get_eq_getElem]
    simp only [col0, List.getElem_map, List.getElem_range']
    congr 1
    push_cast
    ring_nf

/-- Witness for C10 on the empty repository list (the seeded histogram). -/
theorem aggregated_grid_week_columns_witness :
    assocLookup (buildCols (sortMapIntoSlice seedMap) seedMap) 0 = some (col0 seedMap) ∧
    (col0 seedMap)[2]? = some (mapGet seedMap 3) ∧
    assocLookup (buildCols (sortMapIntoSlice seedMap) seedMap) 3 = some (colOf seedMap 3) ∧
    renderCell .tuesday (buildCols (sortMapIntoSlice seedMap) seedMap) 0 1 =
      .ok (printCell (mapGet seedMap 2) false) := by
  have h := aggregated_grid_week_columns "e" 1728345600 .tuesday [] seedMap rfl
  refine ⟨h.1, ?_, ?_, ?_⟩
  · have h2 := h.2.2.1 2 (by norm_num)
    simpa using h2
  · have h2 := (h.2.2.2.1 3 (by norm_num) (by norm_num)).1
    simpa using h2
  · have h2 := h.2.2.2.2 1 (by norm_num) (by decide)
    simpa using h2
